import Mathlib

/-!
Verification development for the lookup core of the spylls Hunspell-compatible
spellchecker (file `spyll/hunspell/algo/lookup.py`).

The Python source is shallowly embedded below.  Python strings are modelled as
`List Char` (a Python `str` is a sequence of code points), flags as `List Char`
(Hunspell flags are short strings), Python `None`-able values as `Option`, and
Python generators as eagerly produced `List`s (all the generators here are
finite; the order of produced elements is preserved).  External collaborators
that are not part of the analyzed source (the `Dic` homonym store, the
capitalization helper module `capitalization.py`, the `re` regex engine used
for BREAK patterns, and the `permutations.replchars` helper) are modelled as
function-valued fields of the `Analyzer` structure or as definitions marked
`Modelled from the spec:`.

A Python call that raises an exception is modelled as `none` (this matters for
`analyze`/`lookup`, see `analyze` below).
-/

set_option maxRecDepth 8000

namespace Spylls

/-- Python `str` as a list of code points. -/
abbrev Str := List Char

/-- A Hunspell flag (a short string in spylls). -/
abbrev Flag := List Char

/-- Convenience: turn a Lean string literal into our `Str` model. -/
def str (s : String) : Str := s.data

/-- Python truthiness of an `Optional[str]` flag field of the Aff config:
`None` and the empty string are falsy. -/
def flagTruthy : Option Flag → Bool
  | none => false
  | some f => !f.isEmpty

/-- Python `o in flags` where `o` is an `Optional[str]`: `None in s` is `False`
for a set of strings, otherwise plain membership. -/
def optMem (o : Option Flag) (fs : List Flag) : Bool :=
  match o with
  | none => false
  | some f => fs.contains f

/-- One token of a compiled affix condition.  `compile()` in the source parses
`suffix.condition` with `re.findall(r'(\[.+\]|[^\[])', ...)`: a bracket
expression is one token, any other character is one token.  We embed the
already-tokenized condition; `dot` is the `.` token (matches any character),
`ch c` a literal character, `cls neg cs` a bracket expression. -/
inductive CondToken
  | dot
  | ch (c : Char)
  | cls (neg : Bool) (cs : List Char)
deriving DecidableEq, Repr

/-- Whether a single condition token matches a single character (the semantics
of the corresponding one-character regex fragment). -/
def CondToken.matchesChar : CondToken → Char → Bool
  | CondToken.dot, _ => true
  | CondToken.ch c, x => c == x
  | CondToken.cls neg cs, x => if neg then !(cs.contains x) else cs.contains x

/-- Embeds `data.aff.Suffix` (external data structure, fields per spec §3). -/
structure Suffix where
  flag : Flag
  strip : Str
  add : Str
  condition : List CondToken
  crossproduct : Bool
  flags : List Flag
deriving DecidableEq, Repr

/-- Embeds `data.aff.Prefix` (external data structure, fields per spec §3). -/
structure Pfx where
  flag : Flag
  strip : Str
  add : Str
  condition : List CondToken
  crossproduct : Bool
  flags : List Flag
deriving DecidableEq, Repr

/-- A dictionary word (`data.dic.Word`): stem plus flag set. -/
structure DicWord where
  stem : Str
  flags : List Flag
deriving DecidableEq, Repr

/-- Capitalization type (`capitalization.Cap`, external helper module). -/
inductive Cap
  | NO
  | INIT
  | ALL
  | HUH
  | HUHINIT
deriving DecidableEq, Repr

/-- Embeds `CompoundPos = Enum('CompoundPos', 'BEGIN MIDDLE END')`. -/
inductive CompoundPos
  | BEGIN
  | MIDDLE
  | END
deriving DecidableEq, Repr

/-- Embeds `CompoundPattern` of the source, with the `left`/`right` strings already
split at `/` into stem and optional flag (the `__post_init__` parsing).
`match` only uses the stems — the source explicitly does not check flags. -/
structure CompoundPattern where
  left_stem : Str
  left_flag : Option Flag
  right_stem : Str
  right_flag : Option Flag
  replacement : Option Str
deriving DecidableEq, Repr

/-- Embeds `CompoundPattern.match(left, right)`:
`left.stem.endswith(self.left_stem) and right.stem.startswith(self.right_stem)`. -/
def CompoundPattern.patMatch (p : CompoundPattern) (l r : Str) : Bool :=
  p.left_stem.isSuffixOf l && p.right_stem.isPrefixOf r

/-- Embeds `WordForm` of the source.  The Python field `prefix` is named `pfx` here
(`prefix` is a Lean keyword); `prefix2` is `pfx2`. -/
structure WordForm where
  text : Str
  stem : Str
  pfx : Option Pfx := none
  suffix : Option Suffix := none
  pfx2 : Option Pfx := none
  suffix2 : Option Suffix := none
deriving DecidableEq, Repr

/-- Embeds `WordForm.is_base`: `not self.suffix and not self.prefix`. -/
def WordForm.is_base (f : WordForm) : Bool :=
  f.suffix.isNone && f.pfx.isNone

/-- Embeds `WordForm.affix_flags`: flags of `prefix` united with flags of `suffix`
(the secondary layers are not included).  Sets are modelled as lists; only
membership is ever queried. -/
def WordForm.affix_flags (f : WordForm) : List Flag :=
  (f.pfx.elim [] Pfx.flags) ++ (f.suffix.elim [] Suffix.flags)

/-- An affix entry as it appears in `WordForm.all_affixes` (a heterogeneous
list of prefixes and suffixes in Python). -/
inductive AffixEntry
  | pre (p : Pfx)
  | suf (s : Suffix)
deriving DecidableEq, Repr

/-- Flags carried by an affix entry. -/
def AffixEntry.flags : AffixEntry → List Flag
  | AffixEntry.pre p => p.flags
  | AffixEntry.suf s => s.flags

/-- Embeds `WordForm.all_affixes`: `filter(None, [prefix2, prefix, suffix, suffix2])`. -/
def WordForm.all_affixes (f : WordForm) : List AffixEntry :=
  (f.pfx2.map AffixEntry.pre).toList ++ (f.pfx.map AffixEntry.pre).toList ++
  (f.suffix.map AffixEntry.suf).toList ++ (f.suffix2.map AffixEntry.suf).toList

/-- Quantifier attached to one token of a COMPOUNDRULE pattern. -/
inductive Quant
  | one
  | star
  | opt
deriving DecidableEq, Repr

/-- Tokenization of a COMPOUNDRULE text, mirroring
`re.findall(r'[^*?][*?]?', self.text)`: a non-quantifier character possibly
followed by `*` or `?`; stray quantifiers are skipped. -/
def parseRuleTokens : List Char → List (Char × Quant)
  | [] => []
  | [c] => if c == '*' || c == '?' then [] else [(c, Quant.one)]
  | c :: q :: rest =>
    if c == '*' || c == '?' then parseRuleTokens (q :: rest)
    else if q == '*' then (c, Quant.star) :: parseRuleTokens rest
    else if q == '?' then (c, Quant.opt) :: parseRuleTokens rest
    else (c, Quant.one) :: parseRuleTokens (q :: rest)

/-- Backtracking matcher for a token sequence against a character sequence:
the semantics of `re.fullmatch` for the well-formed rule patterns the source
compiles (single-character atoms with `*`/`?` quantifiers). -/
def matchTokens : List (Char × Quant) → List Char → Bool
  | [], s => s.isEmpty
  | (c, Quant.one) :: ts, s =>
    match s with
    | [] => false
    | x :: xs => x == c && matchTokens ts xs
  | (c, Quant.opt) :: ts, s =>
    matchTokens ts s ||
      (match s with
       | [] => false
       | x :: xs => x == c && matchTokens ts xs)
  | (c, Quant.star) :: ts, s =>
    matchTokens ts s ||
      (match s with
       | [] => false
       | x :: xs => x == c && matchTokens ((c, Quant.star) :: ts) xs)
termination_by ts s => (s.length, ts.length)

/-- Embeds `CompoundRule` of the source: the raw text; tokens, alphabet and the two
matchers are derived below (`__post_init__`). -/
structure CompoundRule where
  text : Str
deriving DecidableEq, Repr

/-- The parsed token sequence of a rule (`re.compile(self.text)` for the
well-formed patterns the source supports). -/
def CompoundRule.tokens (r : CompoundRule) : List (Char × Quant) :=
  parseRuleTokens r.text

/-- Embeds `self.flags = set(re.sub(r'[\*\?]', '', self.text))`: the rule's alphabet
(each flag, being one character of the text, is a one-character string). -/
def CompoundRule.flagChars (r : CompoundRule) : List Char :=
  r.text.filter fun c => !(c == '*' || c == '?')

/-- Embeds `self.flags.intersection(f)` for one part's flag set: keep the flags that
are single characters of the rule's alphabet, as characters. -/
def CompoundRule.relevant (r : CompoundRule) (flagSet : List Flag) : List Char :=
  flagSet.filterMap fun f =>
    match f with
    | [c] => if r.flagChars.contains c then some c else none
    | _ => none

/-- All ways of choosing one element from each list
(`itertools.product(*relevant_flags)`). -/
def selections : List (List Char) → List (List Char)
  | [] => [[]]
  | cs :: rest => cs.flatMap fun c => (selections rest).map fun sel => c :: sel

/-- Embeds `CompoundRule.fullmatch(flag_sets)`. -/
def CompoundRule.fullmatch (r : CompoundRule) (flagSets : List (List Flag)) : Bool :=
  (selections (flagSets.map r.relevant)).any fun sel => matchTokens r.tokens sel

/-- The partial (prefix-closed) matcher: `self.partial_re` is the nested
pattern `t₁(t₂(…(tₙ)?…)?)?`, which matches exactly the strings matching
`t₁…tₖ` for some `1 ≤ k ≤ n`. -/
def CompoundRule.partMatchSeq (r : CompoundRule) (s : List Char) : Bool :=
  (List.range r.tokens.length).any fun k => matchTokens (r.tokens.take (k + 1)) s

/-- Embeds `CompoundRule.partial_match(flag_sets)`. -/
def CompoundRule.partMatch (r : CompoundRule) (flagSets : List (List Flag)) : Bool :=
  (selections (flagSets.map r.relevant)).any fun sel => r.partMatchSeq sel

/-- The `Aff` configuration record (external, read-only; spec §3).  Optional
flag fields are `Option Flag` (`None` when absent).  `CHECKCOMPOUNDPATTERN`
holds the parsed pattern rows (its Python truthiness is non-emptiness);
`COMPOUNDRULE` holds the raw rule texts.  `BREAK` patterns live on the
`Analyzer` as compiled matchers (see `Analyzer.breakMatches`). -/
structure Aff where
  SFX : List Suffix
  PFX : List Pfx
  FORBIDDENWORD : Option Flag
  NOSUGGEST : Option Flag
  KEEPCASE : Option Flag
  NEEDAFFIX : Option Flag
  ONLYINCOMPOUND : Option Flag
  COMPOUNDFLAG : Option Flag
  COMPOUNDBEGIN : Option Flag
  COMPOUNDMIDDLE : Option Flag
  COMPOUNDLAST : Option Flag
  COMPOUNDPERMITFLAG : Option Flag
  COMPOUNDFORBIDFLAG : Option Flag
  COMPOUNDMIN : Nat
  COMPOUNDWORDSMAX : Option Nat
  CHECKCOMPOUNDCASE : Bool
  CHECKCOMPOUNDTRIPLE : Bool
  CHECKCOMPOUNDREP : Bool
  CHECKCOMPOUNDPATTERN : List CompoundPattern
  ICONV : List (Str × Str)
  REP : List (Str × Str)
  COMPOUNDRULE : List Str
deriving Repr

/-- The `Analyzer` together with its external collaborators:
`homonyms`/`homonymsIC` model `dic.homonyms(stem)` and
`dic.homonyms(stem, ignorecase=True)`; `capVariants` and `capGuess` model the
external capitalization helper (`cap.variants`, `cap.guess`, spec §6);
`breakMatches` models the compiled BREAK regexes: for each pattern, the list
of group-1 spans `(m.start(1), m.end(1))` that `re.finditer` produces on a
text (character positions). -/
structure Analyzer where
  aff : Aff
  homonyms : Str → List DicWord
  homonymsIC : Str → List DicWord
  capVariants : Str → Cap × List Str
  capGuess : Str → Cap
  breakMatches : List (Str → List (Nat × Nat))

/-- Embeds `self.compoundrules = [CompoundRule(r) for r in self.aff.COMPOUNDRULE]`. -/
def Analyzer.compoundrules (A : Analyzer) : List CompoundRule :=
  A.aff.COMPOUNDRULE.map CompoundRule.mk

/-!  ## The affix index (`Affixes`, `compile()`)

`compile()` feeds `itertools.groupby` over the chained SFX (resp. PFX) entries
(grouped by *consecutive* equal `add`, reversed for suffixes) into a
`CharTrie`; a later group with the same key overwrites an earlier one.  We
model the trie as an association list built the same way; `lookup(query)`
returns the entries of every stored key that is a prefix of the query (the
order in which `pygtrie.prefixes` enumerates keys is not relied upon by any
claim, we keep insertion order). -/

/-- Group a list by consecutive equal keys (the semantics of
`itertools.groupby`). -/
def groupConsecBy (key : α → Str) : List α → List (Str × List α)
  | [] => []
  | e :: rest =>
    match groupConsecBy key rest with
    | [] => [(key e, [e])]
    | (k, g) :: gs =>
      if key e = k then (k, e :: g) :: gs else (key e, [e]) :: (k, g) :: gs

/-- Assignment into the trie-as-table: overwrite an existing key, else append. -/
def tableInsert (t : List (Str × β)) (k : Str) (v : β) : List (Str × β) :=
  if t.any fun kv => kv.1 == k then
    t.map fun kv => if kv.1 == k then (k, v) else kv
  else t ++ [(k, v)]

/-- Build the table by successive assignments (`self.suffixes[add] = [...]`). -/
def buildTable (gs : List (Str × β)) : List (Str × β) :=
  gs.foldl (fun t kv => tableInsert t kv.1 kv.2) []

/-- The suffix trie: keyed by `suf.add[::-1]`. -/
def suffixTable (A : Analyzer) : List (Str × List Suffix) :=
  buildTable (groupConsecBy (fun s => s.add.reverse) A.aff.SFX)

/-- The prefix trie: keyed by `pref.add`. -/
def prefixTable (A : Analyzer) : List (Str × List Pfx) :=
  buildTable (groupConsecBy (fun p => p.add) A.aff.PFX)

/-- Embeds `self.suffixes.lookup(word[::-1])`: all entries whose (reversed) key is a
prefix of the reversed word. -/
def suffixCandidatesAll (A : Analyzer) (word : Str) : List Suffix :=
  ((suffixTable A).filter fun kv => kv.1.isPrefixOf word.reverse).flatMap fun kv => kv.2

/-- Embeds `self.prefixes.lookup(word)`. -/
def prefixCandidatesAll (A : Analyzer) (word : Str) : List Pfx :=
  ((prefixTable A).filter fun kv => kv.1.isPrefixOf word).flatMap fun kv => kv.2

/-!  ## Compiled affix condition regexes (`suffix_regexp` / `prefix_regexp`)

For a suffix the source compiles `(?<=cond')add$` where `cond'` drops the last
`len(strip)` condition tokens (`['.']` alone collapses to no condition); for a
prefix, `^add(?=cond')` where `cond'` drops the first `len(strip)` tokens.
Each remaining token matches exactly one character, so `regexp.search(word)`
holds iff the word ends (resp. starts) with `add` and the adjacent characters
match the trimmed tokens; `regexp.sub(strip, word)` then replaces the matched
`add` by `strip`. -/

/-- The trimmed condition of a suffix: `cond_parts[:-len(strip)] if strip`. -/
def condTrimSuffix (suf : Suffix) : List CondToken :=
  if suf.strip.isEmpty then suf.condition
  else suf.condition.take (suf.condition.length - suf.strip.length)

/-- The trimmed condition of a prefix: `cond_parts[len(strip):]`. -/
def condTrimPfx (pre : Pfx) : List CondToken :=
  pre.condition.drop pre.strip.length

/-- A fixed-width lookbehind: the last `tokens.length` characters of `pre`
match the tokens pointwise (no match if `pre` is too short). -/
def condHoldsEnd (tokens : List CondToken) (pre : Str) : Bool :=
  decide (tokens.length ≤ pre.length) &&
  ((pre.drop (pre.length - tokens.length)).zip tokens).all fun ct =>
    ct.2.matchesChar ct.1

/-- A lookahead: the first `tokens.length` characters of `post` match the
tokens pointwise. -/
def condHoldsStart (tokens : List CondToken) (post : Str) : Bool :=
  decide (tokens.length ≤ post.length) &&
  (post.zip tokens).all fun ct => ct.2.matchesChar ct.1

/-- Embeds `suffix_regexp(suffix).search(word)`. -/
def sufMatch (suf : Suffix) (word : Str) : Bool :=
  suf.add.isSuffixOf word &&
  (let tokens := condTrimSuffix suf
   if tokens.isEmpty || tokens == [CondToken.dot] then true
   else condHoldsEnd tokens (word.take (word.length - suf.add.length)))

/-- Embeds `prefix_regexp(prefix).search(word)`. -/
def pfxMatch (pre : Pfx) (word : Str) : Bool :=
  pre.add.isPrefixOf word &&
  (let tokens := condTrimPfx pre
   if tokens.isEmpty || tokens == [CondToken.dot] then true
   else condHoldsStart tokens (word.drop pre.add.length))

/-- Embeds `regexp.sub(suffix.strip, word)` for a matched suffix regex: the matched
`add` (anchored at the end) is replaced by `strip`. -/
def sufStem (suf : Suffix) (word : Str) : Str :=
  word.take (word.length - suf.add.length) ++ suf.strip

/-- Embeds `regexp.sub(prefix.strip, word)` for a matched prefix regex. -/
def pfxStem (pre : Pfx) (word : Str) : Str :=
  pre.strip ++ word.drop pre.add.length

/-!  ## `desuffix` / `deprefix` (the latter embedded as `dePfx`)

The Python functions carry a `nested` flag limiting recursion to one level; we
split the nested (non-recursing) case into its own definition.  `required` and
`forbidden` flag lists may contain Python `None` (when a `COMPOUNDPERMITFLAG`
slot is undefined), hence `List (Option Flag)` and `optMem`. -/

/-- Embeds `good_suffix` inside `desuffix`. -/
def goodSuffix (suf : Suffix) (req forb : List (Option Flag)) (crossp : Bool) : Bool :=
  (!crossp || suf.crossproduct) &&
  (req.all fun f => optMem f suf.flags) &&
  (forb.all fun f => !optMem f suf.flags)

/-- Embeds `good_prefix` inside `deprefix`. -/
def goodPfx (pre : Pfx) (req forb : List (Option Flag)) : Bool :=
  (req.all fun f => optMem f pre.flags) &&
  (forb.all fun f => !optMem f pre.flags)

/-- The filtered suffix candidates of `desuffix`. -/
def suffixCandidates (A : Analyzer) (word : Str) (req forb : List (Option Flag))
    (crossp : Bool) : List Suffix :=
  (suffixCandidatesAll A word).filter fun suf =>
    goodSuffix suf req forb crossp && sufMatch suf word

/-- The filtered prefix candidates of `deprefix`. -/
def pfxCandidates (A : Analyzer) (word : Str) (req forb : List (Option Flag)) :
    List Pfx :=
  (prefixCandidatesAll A word).filter fun pre =>
    goodPfx pre req forb && pfxMatch pre word

/-- Embeds `desuffix(..., nested=True, ...)`: yields first-level forms only. -/
def desuffixNested (A : Analyzer) (word : Str) (req forb : List (Option Flag))
    (crossp : Bool) : List WordForm :=
  (suffixCandidates A word req forb crossp).map fun suf =>
    ⟨word, sufStem suf word, none, some suf, none, none⟩

/-- Embeds `desuffix(..., nested=False, ...)`: per matching suffix, the stripped form
followed by the one-level-deeper forms (inner strip in `suffix`, outer in
`suffix2`, `text` reset to the original word). -/
def desuffix (A : Analyzer) (word : Str) (req forb : List (Option Flag))
    (crossp : Bool) : List WordForm :=
  (suffixCandidates A word req forb crossp).flatMap fun suf =>
    let stem := sufStem suf word
    ⟨word, stem, none, some suf, none, none⟩ ::
    ((desuffixNested A stem (some suf.flag :: req) forb crossp).map fun f2 =>
      { f2 with suffix2 := some suf, text := word })

/-- Embeds `deprefix(..., nested=True)` as `dePfxNested`. -/
def dePfxNested (A : Analyzer) (word : Str) (req forb : List (Option Flag)) :
    List WordForm :=
  (pfxCandidates A word req forb).map fun pre =>
    ⟨word, pfxStem pre word, some pre, none, none, none⟩

/-- Embeds `deprefix(..., nested=False)` as `dePfx`. -/
def dePfx (A : Analyzer) (word : Str) (req forb : List (Option Flag)) :
    List WordForm :=
  (pfxCandidates A word req forb).flatMap fun pre =>
    let stem := pfxStem pre word
    ⟨word, stem, some pre, none, none, none⟩ ::
    ((dePfxNested A stem (some pre.flag :: req) forb).map fun f2 =>
      { f2 with pfx2 := some pre, text := word })

/-- Embeds `form.prefix.crossproduct` guard of the cross-product branch (the prefix
field is always set on forms produced by `deprefix`). -/
def pfxCross (form : WordForm) : Bool :=
  match form.pfx with
  | some p => p.crossproduct
  | none => false

/-- Embeds `try_affix_forms(word, compoundpos)`: the identity form, then suffix
strippings, then prefix strippings each followed by their cross-product
suffix strippings.  NOTE (faithful to the source, line 379): the
cross-product branch is `form2.replace(prefix=form.prefix)` — it does *not*
reset `text`, so those forms keep `text = form.stem` (the deprefixed stem),
not the original word. -/
def tryAffixForms (A : Analyzer) (word : Str) (compoundpos : Option CompoundPos) :
    List WordForm :=
  let aff := A.aff
  let sufAllowed :=
    match compoundpos with
    | none => true
    | some p => decide (p = CompoundPos.END) || flagTruthy aff.COMPOUNDPERMITFLAG
  let pfxAllowed :=
    match compoundpos with
    | none => true
    | some p => decide (p = CompoundPos.BEGIN) || flagTruthy aff.COMPOUNDPERMITFLAG
  let pfxReq : List (Option Flag) :=
    match compoundpos with
    | none => []
    | some p => if p = CompoundPos.BEGIN then [] else [aff.COMPOUNDPERMITFLAG]
  let sufReq : List (Option Flag) :=
    match compoundpos with
    | none => []
    | some p => if p = CompoundPos.END then [] else [aff.COMPOUNDPERMITFLAG]
  let forb : List (Option Flag) :=
    match compoundpos with
    | none => []
    | some _ => if flagTruthy aff.COMPOUNDFORBIDFLAG then [aff.COMPOUNDFORBIDFLAG] else []
  ⟨word, word, none, none, none, none⟩ ::
  ((if sufAllowed then desuffix A word sufReq forb false else []) ++
   (if pfxAllowed then
      (dePfx A word pfxReq forb).flatMap fun form =>
        form ::
        (if sufAllowed && pfxCross form then
           (desuffix A form.stem sufReq forb true).map fun f2 =>
             { f2 with pfx := form.pfx }
         else [])
    else []))

/-!  ## Flag compatibility (`have_compatible_flags`) -/

/-- Embeds `have_compatible_flags(dictionary_word, form, compoundpos, captype,
allow_nosuggest)`.  Direct translation of the cascade of rejections. -/
def haveCompatibleFlags (A : Analyzer) (dword : DicWord) (form : WordForm)
    (compoundpos : Option CompoundPos) (captype : Cap) (ans : Bool) : Bool :=
  let aff := A.aff
  let allFlags := dword.flags ++ form.affix_flags
  if !ans && optMem aff.NOSUGGEST dword.flags then false
  else if flagTruthy aff.KEEPCASE && optMem aff.KEEPCASE dword.flags &&
          !(captype == A.capGuess dword.stem) then false
  else if flagTruthy aff.NEEDAFFIX &&
          ((optMem aff.NEEDAFFIX dword.flags && form.all_affixes.isEmpty) ||
           (!form.all_affixes.isEmpty &&
            form.all_affixes.all fun a => optMem aff.NEEDAFFIX a.flags)) then false
  else if (match form.pfx with
           | some p => !allFlags.contains p.flag
           | none => false) then false
  else if (match form.suffix with
           | some s => !allFlags.contains s.flag
           | none => false) then false
  else
    match compoundpos with
    | none => !optMem aff.ONLYINCOMPOUND allFlags
    | some pos =>
      if optMem aff.COMPOUNDFLAG allFlags then true
      else
        match pos with
        | CompoundPos.BEGIN => optMem aff.COMPOUNDBEGIN allFlags
        | CompoundPos.END => optMem aff.COMPOUNDLAST allFlags
        | CompoundPos.MIDDLE => optMem aff.COMPOUNDMIDDLE allFlags

/-!  ## `word_forms` -/

/-- The per-form abort condition of `word_forms` (lines 223–225): the form is
at a compound position or is not base, and some homonym of its stem carries
FORBIDDENWORD. -/
def triggersAbort (A : Analyzer) (compoundpos : Option CompoundPos)
    (form : WordForm) : Bool :=
  (compoundpos.isSome || !form.is_base) &&
  (A.homonyms form.stem).any fun dw => optMem A.aff.FORBIDDENWORD dw.flags

/-- The compatibility test on a case-exact homonym. -/
def exactCompat (A : Analyzer) (form : WordForm) (compoundpos : Option CompoundPos)
    (captype : Cap) (ans : Bool) : DicWord → Bool :=
  fun w => haveCompatibleFlags A w form compoundpos captype ans

/-- The test on a case-insensitive homonym: the `continue`-filter of lines
238–239 (skip unless `captype == ALL` or the stored stem is all-lowercase)
followed by the compatibility test. -/
def icCompat (A : Analyzer) (form : WordForm) (compoundpos : Option CompoundPos)
    (captype : Cap) (ans : Bool) : DicWord → Bool :=
  fun w =>
    !(!(captype == Cap.ALL) && !(A.capGuess w.stem == Cap.NO)) &&
    haveCompatibleFlags A w form compoundpos captype ans

/-- What `word_forms` yields for one candidate form (lines 227–243): `form`
once per compatible case-exact homonym; if none is compatible, `form` once per
case-insensitive homonym passing `icCompat`. -/
def formYields (A : Analyzer) (form : WordForm) (compoundpos : Option CompoundPos)
    (captype : Cap) (ans : Bool) : List WordForm :=
  if !((A.homonyms form.stem).filter (exactCompat A form compoundpos captype ans)).isEmpty then
    ((A.homonyms form.stem).filter (exactCompat A form compoundpos captype ans)).map
      fun _ => form
  else
    ((A.homonymsIC form.stem).filter (icCompat A form compoundpos captype ans)).map
      fun _ => form

/-- The generator loop of `word_forms` over the stream of candidate forms: a
triggered abort (`return`) discards everything from that form on. -/
def wordFormsAux (A : Analyzer) (compoundpos : Option CompoundPos) (captype : Cap)
    (ans : Bool) : List WordForm → List WordForm
  | [] => []
  | form :: rest =>
    if triggersAbort A compoundpos form then []
    else formYields A form compoundpos captype ans ++
         wordFormsAux A compoundpos captype ans rest

/-- Embeds `word_forms(word, captype, compoundpos, allow_nosuggest)`. -/
def wordForms (A : Analyzer) (word : Str) (captype : Cap)
    (compoundpos : Option CompoundPos) (ans : Bool) : List WordForm :=
  wordFormsAux A compoundpos captype ans (tryAffixForms A word compoundpos)

/-!  ## Compound search -/

/-- Embeds `aff.COMPOUNDWORDSMAX and len(prev_parts) >= aff.COMPOUNDWORDSMAX`:
Python truthiness makes `COMPOUNDWORDSMAX = 0` falsy (no cap). -/
def wordsmaxHit (A : Analyzer) (prevLen : Nat) : Bool :=
  match A.aff.COMPOUNDWORDSMAX with
  | some m => decide (m ≠ 0) && decide (m ≤ prevLen)
  | none => false

/-- The cutoff `len(word_rest) < COMPOUNDMIN * 2 or (COMPOUNDWORDSMAX and
len(prev_parts) >= COMPOUNDWORDSMAX)`. -/
def cutoff (A : Analyzer) (restLen prevLen : Nat) : Bool :=
  decide (restLen < A.aff.COMPOUNDMIN * 2) || wordsmaxHit A prevLen

/-- The split positions `range(COMPOUNDMIN, len(word_rest) - COMPOUNDMIN + 1)`. -/
def splitPositions (A : Analyzer) (restLen : Nat) : List Nat :=
  List.range' A.aff.COMPOUNDMIN (restLen - A.aff.COMPOUNDMIN + 1 - A.aff.COMPOUNDMIN)

/-- Embeds `compound_parts_by_flags(word_rest, prev_parts, allow_nosuggest)`.  The
Python recursion has no fuel; with `COMPOUNDMIN ≥ 1` every recursive call
strictly shortens `word_rest`, so the top-level call with fuel
`word.length + 1` (see `compoundParts`) never exhausts it.  Note the order:
the END-position yield precedes the cutoff check. -/
def compoundPartsByFlags (A : Analyzer) (ans : Bool) :
    Nat → Str → List WordForm → List (List WordForm)
  | 0, _, _ => []
  | fuel + 1, rest, prev =>
    (if prev.isEmpty then []
     else (wordForms A rest Cap.NO (some CompoundPos.END) ans).map fun f => [f]) ++
    (if cutoff A rest.length prev.length then []
     else
       let cpos := if prev.isEmpty then CompoundPos.BEGIN else CompoundPos.MIDDLE
       (splitPositions A rest.length).flatMap fun pos =>
         let beg := rest.take pos
         (wordForms A beg Cap.NO (some cpos) ans).flatMap fun form =>
           (compoundPartsByFlags A ans fuel (rest.drop pos) (prev ++ [form])).map
             fun rst => form :: rst)

/-- The END-position yield of `compound_parts_by_rules`: if appending a
homonym of the whole rest lets some rule fully match the flag sequence, the
rest becomes the last part. -/
def rulesEndYields (A : Analyzer) (rest : Str) (prev : List DicWord)
    (rules : List CompoundRule) : List (List WordForm) :=
  (A.homonyms rest).flatMap fun hom =>
    if rules.any fun r => r.fullmatch ((prev ++ [hom]).map DicWord.flags) then
      [[⟨rest, rest, none, none, none, none⟩]]
    else []

/-- Embeds `compound_parts_by_rules(word_rest, prev_parts, rules, allow_nosuggest)`.
Faithful details: the recursion passes the *unfiltered* `rules` (line 522) and
does not forward `allow_nosuggest` (so it reverts to its default `True`); the
parameter is in fact unused in the body (the rules path ignores FORBIDDENWORD
and NOSUGGEST, as the source's FIXME notes). -/
def compoundPartsByRules (A : Analyzer) (_ans : Bool) :
    Nat → Str → List DicWord → List CompoundRule → List (List WordForm)
  | 0, _, _, _ => []
  | fuel + 1, rest, prev, rules =>
    (if prev.isEmpty then [] else rulesEndYields A rest prev rules) ++
    (if cutoff A rest.length prev.length then []
     else
       (splitPositions A rest.length).flatMap fun pos =>
         let beg := rest.take pos
         (A.homonyms beg).flatMap fun hom =>
           let parts := prev ++ [hom]
           if !(rules.filter fun r => r.partMatch (parts.map DicWord.flags)).isEmpty then
             (compoundPartsByRules A true fuel (rest.drop pos) parts rules).map
               fun rst => ⟨beg, beg, none, none, none, none⟩ :: rst
           else [])

/-!  ## `bad_compound` and `compound_parts`

`permutations.replchars` is an external module (not part of the analyzed
source). -/

/-- All positions where `pat` occurs in `word`, each giving `word` with that
single occurrence replaced by `rep`. -/
def replOccs (word pat rep : Str) : List Str :=
  if pat.isEmpty then []
  else
    (List.range word.length).filterMap fun p =>
      if pat.isPrefixOf (word.drop p) then
        some (word.take p ++ rep ++ word.drop (p + pat.length))
      else none

/-- Modelled from the spec: `pmt.replchars(word, REP)` (module
`spyll.hunspell.algo.permutations`, not under the analyzed source) produces
"for every candidate string c produced by applying REP-replacements to
left+right (one replacement site at a time, all positions of all REP pairs)";
only plain-string candidates are considered (`isinstance(candidate, str)`). -/
def replchars (word : Str) (reps : List (Str × Str)) : List Str :=
  reps.flatMap fun io => replOccs word io.1 io.2

/-- The COMPOUNDFORBIDFLAG check on a left part (lines 263–267): only when the
flag is defined; right parts are never checked. -/
def forbidHom (A : Analyzer) (left : Str) : Bool :=
  flagTruthy A.aff.COMPOUNDFORBIDFLAG &&
  (A.homonyms left).any fun dw => optMem A.aff.COMPOUNDFORBIDFLAG dw.flags

/-- Python `len(set(...))` on a list of characters. -/
def pySetSize (l : List Char) : Nat :=
  (l.foldl (fun acc c => if acc.contains c then acc else acc ++ [c]) []).length

/-- Python slice `l[-n:]`. -/
def lastSlice (n : Nat) (l : Str) : Str := l.drop (l.length - n)

/-- The CHECKCOMPOUNDTRIPLE seam test (line 276):
`len(set(left[-2:] + right[:1])) == 1 or len(set(left[-1:] + right[:2])) == 1`. -/
def tripleSeam (left right : Str) : Bool :=
  pySetSize (lastSlice 2 left ++ right.take 1) == 1 ||
  pySetSize (lastSlice 1 left ++ right.take 2) == 1

/-- The CHECKCOMPOUNDCASE seam test (lines 279–281).  Python indexes
`right[0]` and `left[-1]` and would raise IndexError on an empty part; parts
produced by the compound searches are nonempty whenever `COMPOUNDMIN ≥ 1`, so
the `false` completion below is unreachable from `compound_parts`. -/
def caseSeam (left right : Str) : Bool :=
  match left.getLast?, right.head? with
  | some l, some r =>
    (r == r.toUpper || l == l.toUpper) && !(r == '-') && !(l == '-')
  | _, _ => false

/-- The four seam checks of the inner loop of `bad_compound` (lines 269–285),
in source order: CHECKCOMPOUNDREP, CHECKCOMPOUNDTRIPLE, CHECKCOMPOUNDCASE,
CHECKCOMPOUNDPATTERN. -/
def seamChecks (A : Analyzer) (leftP rightP : WordForm) : Bool :=
  let left := leftP.text
  let right := rightP.text
  (A.aff.CHECKCOMPOUNDREP &&
    (replchars (left ++ right) A.aff.REP).any fun cand =>
      !(wordForms A cand Cap.NO none true).isEmpty) ||
  (A.aff.CHECKCOMPOUNDTRIPLE && tripleSeam left right) ||
  (A.aff.CHECKCOMPOUNDCASE && caseSeam left right) ||
  (!A.aff.CHECKCOMPOUNDPATTERN.isEmpty &&
    A.aff.CHECKCOMPOUNDPATTERN.any fun rule => rule.patMatch leftP.stem rightP.stem)

/-- Embeds `bad_compound(compound)`: some left part among `compound[:-1]` either has
a COMPOUNDFORBIDFLAG homonym or fails a seam check against some right part
among `compound[1:]` (note: *all* parts except the first, regardless of
position relative to the left part — see the C9 analysis). -/
def badCompound (A : Analyzer) (compound : List WordForm) : Bool :=
  compound.dropLast.any fun leftP =>
    forbidHom A leftP.text ||
    (compound.drop 1).any fun rightP => seamChecks A leftP rightP

/-- Embeds `compound_parts(word, allow_nosuggest)`: by-flags results (only when
COMPOUNDBEGIN or COMPOUNDFLAG is set) chained with by-rules results (only
when COMPOUNDRULE is non-empty), filtered by `bad_compound`. -/
def compoundParts (A : Analyzer) (word : Str) (ans : Bool) : List (List WordForm) :=
  let byFlags :=
    if flagTruthy A.aff.COMPOUNDBEGIN || flagTruthy A.aff.COMPOUNDFLAG then
      compoundPartsByFlags A ans (word.length + 1) word []
    else []
  let byRules :=
    if !A.compoundrules.isEmpty then
      compoundPartsByRules A ans (word.length + 1) word [] A.compoundrules
    else []
  (byFlags ++ byRules).filter fun c => !badCompound A c

/-!  ## `analyze` and `lookup` -/

/-- An item yielded by `analyze`: a plain word form or a compound. -/
inductive Parse
  | affix (f : WordForm)
  | compound (c : List WordForm)
deriving DecidableEq, Repr

/-- Embeds `analyze_internal(variant, captype)`: word forms chained with compound
parts. -/
def analyzeInternal (A : Analyzer) (variant : Str) (captype : Cap) (ans : Bool) :
    List Parse :=
  (wordForms A variant captype none ans).map Parse.affix ++
  (compoundParts A variant ans).map Parse.compound

/-- The `capitalization=True` path of `analyze`: expand capitalization
variants and analyze each with the guessed captype. -/
def analyzeT (A : Analyzer) (word : Str) (ans : Bool) : List Parse :=
  let cv := A.capVariants word
  cv.2.flatMap fun v => analyzeInternal A v cv.1 ans

/-- Embeds `analyze(word, capitalization, allow_nosuggest)`.  CODE BUG (line 209):
with `capitalization=False` the source executes `return analyze_internal(word)`
although `analyze_internal(variant, captype)` requires two positional
arguments, so the call raises `TypeError`; we model the raised exception as
`none`. -/
def analyze (A : Analyzer) (word : Str) (capitalization ans : Bool) :
    Option (List Parse) :=
  if capitalization then some (analyzeT A word ans) else none

/-- Embeds `is_found(variant)` as used inside `lookup` once the capitalization=True
path is taken: `any(analyze(variant, ...))`. -/
def isFound (A : Analyzer) (ans : Bool) (variant : Str) : Bool :=
  !(analyzeT A variant ans).isEmpty

/-- Stable sort of the ICONV pairs by output length, descending
(`sorted(ICONV, key=lambda io: len(io[1]), reverse=True)`). -/
def insertDesc (x : Str × Str) : List (Str × Str) → List (Str × Str)
  | [] => [x]
  | y :: ys =>
    if y.2.length ≤ x.2.length then x :: y :: ys else y :: insertDesc x ys

/-- See `insertDesc`. -/
def sortDesc (l : List (Str × Str)) : List (Str × Str) :=
  l.foldr insertDesc []

/-- Scanner for `strReplace` (the fuel, initially the string length, only
bounds the recursion: each step consumes at least one character and exactly
one unit of fuel, so for a non-empty pattern the fuel never runs out before
the string does). -/
def strReplaceAux (pat rep : Str) : Nat → Str → Str
  | 0, _ => []
  | fuel + 1, s =>
    match s with
    | [] => []
    | c :: rest =>
      if pat.isPrefixOf (c :: rest) then
        rep ++ strReplaceAux pat rep fuel ((c :: rest).drop pat.length)
      else c :: strReplaceAux pat rep fuel rest

/-- Python `word.replace(pat, rep)`: replace all non-overlapping occurrences
left to right (with Python's behavior on an empty pattern: insert `rep` at
every boundary). -/
def strReplace (s pat rep : Str) : Str :=
  if pat.isEmpty then rep ++ s.flatMap fun c => c :: rep
  else strReplaceAux pat rep s.length s

/-- Embeds `apply_iconv` of the claims: ICONV pairs sorted by output length
descending, each applied as a plain string replace. -/
def applyIconv (pairs : List (Str × Str)) (word : Str) : Str :=
  (sortDesc pairs).foldl (fun w io => strReplace w io.1 io.2) word

/-- The ICONV step of `lookup` (guarded by `if self.aff.ICONV:`, which is a
no-op guard since replacing with no pairs is the identity). -/
def iconvWord (A : Analyzer) (word : Str) : Str :=
  if A.aff.ICONV.isEmpty then word else applyIconv A.aff.ICONV word

/-- The forbidden-word shortcut of `lookup` (lines 156–158). -/
def forbiddenShortcut (A : Analyzer) (word : Str) : Bool :=
  flagTruthy A.aff.FORBIDDENWORD &&
  !(A.homonyms word).isEmpty &&
  (A.homonyms word).all fun dw => optMem A.aff.FORBIDDENWORD dw.flags

/-- Embeds `try_break(text, depth)`: the identity split, then for each break-pattern
match, the text before the group-1 span followed by the splits of the text
after it (the matched span itself is dropped).  `depth > 10: return`
corresponds to fuel `0`; the top-level call (depth 0) has fuel 11. -/
def tryBreak (A : Analyzer) : Nat → Str → List (List Str)
  | 0, _ => []
  | fuel + 1, text =>
    [text] ::
    (A.breakMatches.flatMap fun bm =>
      (bm text).flatMap fun se =>
        (tryBreak A fuel (text.drop se.2)).map fun breaking =>
          text.take se.1 :: breaking)

/-- The body of `lookup` after the forbidden shortcut, applied to the
ICONV-converted word.  With `capitalization=False` the very first
`is_found(word)` call raises the `analyze` TypeError (modelled `none`). -/
def lookupPost (A : Analyzer) (w2 : Str) (capitalization ans : Bool) : Option Bool :=
  if capitalization then
    if isFound A ans w2 then some true
    else
      some ((tryBreak A 11 w2).any fun parts =>
        parts.all fun part => part.isEmpty || isFound A ans part)
  else none

/-- Embeds `lookup(word, capitalization, allow_nosuggest)`: forbidden shortcut, then
ICONV, then `is_found` on the word and on every break splitting (a splitting
is accepted when all of its non-empty parts are found). -/
def lookup (A : Analyzer) (word : Str) (capitalization ans : Bool) : Option Bool :=
  if forbiddenShortcut A word then some false
  else lookupPost A (iconvWord A word) capitalization ans

/-!  ## Concrete fixtures

Small Aff+Dic configurations (in the spirit of spec §8's scenarios) used to
evaluate the embedded code on concrete inputs.  The capitalization helper is
instantiated with the preserve-only variant expansion
(`variants(w) = (NO, [w])`, `guess(_) = NO`), a legal collaborator per spec
§6; the case-insensitive homonym store is empty. -/

/-- An Aff with nothing set (COMPOUNDMIN keeps its Hunspell default 3). -/
def defaultAff : Aff where
  SFX := []
  PFX := []
  FORBIDDENWORD := none
  NOSUGGEST := none
  KEEPCASE := none
  NEEDAFFIX := none
  ONLYINCOMPOUND := none
  COMPOUNDFLAG := none
  COMPOUNDBEGIN := none
  COMPOUNDMIDDLE := none
  COMPOUNDLAST := none
  COMPOUNDPERMITFLAG := none
  COMPOUNDFORBIDFLAG := none
  COMPOUNDMIN := 3
  COMPOUNDWORDSMAX := none
  CHECKCOMPOUNDCASE := false
  CHECKCOMPOUNDTRIPLE := false
  CHECKCOMPOUNDREP := false
  CHECKCOMPOUNDPATTERN := []
  ICONV := []
  REP := []
  COMPOUNDRULE := []

/-- A dictionary as an association list of stems and flag sets. -/
def dicOf (entries : List (Str × List Flag)) : Str → List DicWord :=
  fun s => (entries.filter fun e => e.1 == s).map fun e => ⟨e.1, e.2⟩

/-- Preserve-only capitalization variants. -/
def capId : Str → Cap × List Str := fun w => (Cap.NO, [w])

/-- Bundle an Aff and a dictionary into an Analyzer with the identity
capitalization collaborators and no break patterns. -/
def mkAnalyzer (aff : Aff) (entries : List (Str × List Flag)) : Analyzer where
  aff := aff
  homonyms := dicOf entries
  homonymsIC := fun _ => []
  capVariants := capId
  capGuess := fun _ => Cap.NO
  breakMatches := []

/-- Fixture for C1: `bad/!` with `!` as FORBIDDENWORD. -/
def A1 : Analyzer :=
  mkAnalyzer { defaultAff with FORBIDDENWORD := some (str "!") }
    [(str "bad", [str "!"])]

/-- Fixture for C2: a plain one-word dictionary. -/
def A2 : Analyzer := mkAnalyzer defaultAff [(str "hello", [])]

/-- Fixture for C3: ICONV maps `a` to `c`; `c` is a forbidden word. -/
def A3 : Analyzer :=
  mkAnalyzer
    { defaultAff with
        FORBIDDENWORD := some (str "!")
        ICONV := [(str "a", str "c")] }
    [(str "c", [str "!"])]

/-- Non-overlapping group-1 spans of `re.finditer` for the compiled BREAK
pattern `.(-).` (`BREAK -`): scan for a `-` with one character on each side. -/
def dashScan : List Char → Nat → List (Nat × Nat)
  | _c1 :: c2 :: c3 :: rest, i =>
    if c2 = '-' then (i + 1, i + 2) :: dashScan rest (i + 3)
    else dashScan (c2 :: c3 :: rest) (i + 1)
  | _, _ => []

/-- See `dashScan`. -/
def dashMatcher : Str → List (Nat × Nat) := fun s => dashScan s 0

/-- Fixture for C4: `BREAK -`, dictionary `foo`, `bar`. -/
def A4 : Analyzer :=
  { mkAnalyzer defaultAff [(str "foo", []), (str "bar", [])] with
      breakMatches := [dashMatcher] }

/-- Fixture for C5: COMPOUNDFLAG `Z`, COMPOUNDMIN 1, COMPOUNDWORDSMAX 2. -/
def A5 : Analyzer :=
  mkAnalyzer
    { defaultAff with
        COMPOUNDFLAG := some (str "Z")
        COMPOUNDMIN := 1
        COMPOUNDWORDSMAX := some 2 }
    [(str "a", [str "Z"]), (str "b", [str "Z"]), (str "c", [str "Z"])]

/-- The suffix `y` (flag `S`, carries the permit flag `F`, cross-product). -/
def sfxY : Suffix :=
  ⟨str "S", [], str "y", [CondToken.dot], true, [str "F"]⟩

/-- The prefix `x` (flag `P`, cross-product). -/
def pfxX : Pfx :=
  ⟨str "P", [], str "x", [CondToken.dot], true, []⟩

/-- Fixture for C6: prefix `x`, suffix `y` (cross-product), COMPOUNDFLAG `Z`,
COMPOUNDPERMITFLAG `F`, COMPOUNDMIN 1; dictionary `cat/PSZ`, `dog/Z`. -/
def A6 : Analyzer :=
  mkAnalyzer
    { defaultAff with
        SFX := [sfxY]
        PFX := [pfxX]
        COMPOUNDFLAG := some (str "Z")
        COMPOUNDPERMITFLAG := some (str "F")
        COMPOUNDMIN := 1 }
    [(str "cat", [str "P", str "S", str "Z"]), (str "dog", [str "Z"])]

/-- The suffix `s` (flag `A`, unconditional). -/
def sfxS : Suffix :=
  ⟨str "A", [], str "s", [CondToken.dot], false, []⟩

/-- Fixture for C7: suffix `s`, FORBIDDENWORD `!`, dictionary `cat/!`. -/
def A7 : Analyzer :=
  mkAnalyzer
    { defaultAff with
        FORBIDDENWORD := some (str "!")
        SFX := [sfxS] }
    [(str "cat", [str "!"])]

/-- Fixture for C8: two duplicate flagless homonyms of `cat`. -/
def A8 : Analyzer := mkAnalyzer defaultAff [(str "cat", []), (str "cat", [])]

/-- Fixture for C9/C10: only CHECKCOMPOUNDTRIPLE enabled. -/
def A9 : Analyzer :=
  mkAnalyzer { defaultAff with CHECKCOMPOUNDTRIPLE := true } []

/-- Fixture for the C3 witness: ICONV `a → b`, no FORBIDDENWORD. -/
def A11 : Analyzer :=
  mkAnalyzer { defaultAff with ICONV := [(str "a", str "b")] }
    [(str "b", [])]

/-- An identity word form (no affixes) over a text. -/
def idForm (s : String) : WordForm := ⟨str s, str s, none, none, none, none⟩

/-!  ## Claim-side definitions -/

/-- Concatenation of a list of strings. -/
def concatParts (l : List Str) : Str := l.foldr (fun a b => a ++ b) []

/-- The concatenated `text` fields of a compound. -/
def concatTexts (c : List WordForm) : Str := concatParts (c.map WordForm.text)

/-- The check structure asserted by claim C9 (from the claim's words, to be
compared with `badCompound`): some check holds for a pair `(left, right)`
where `left` *strictly precedes* `right` and `left` is not the last part. -/
def badCompoundSpec (A : Analyzer) (c : List WordForm) : Bool :=
  (List.range c.length).any fun i =>
    (List.range c.length).any fun j =>
      decide (i < j) && decide (i + 1 < c.length) &&
      (match c.get? i, c.get? j with
       | some l, some r => forbidHom A l.text || seamChecks A l r
       | _, _ => false)

/-- Parts interleaved with separator strings:
`interleaveParts [p₀, …, pₙ] [s₀, …, sₙ₋₁] = p₀ ++ s₀ ++ p₁ ++ … ++ pₙ`. -/
def interleaveParts : List Str → List Str → Str
  | [], _ => []
  | [p], _ => p
  | p :: ps, [] => p ++ interleaveParts ps []
  | p :: ps, s :: ss => p ++ (s ++ interleaveParts ps ss)

/-!  ## Helper lemmas -/

/-- Mapping a constant over a filter gives a replicate of the match count. -/
theorem map_const_filter (l : List α) (p : α → Bool) (b : β) :
    (l.filter p).map (fun _ => b) = List.replicate (l.countP p) b := by
  induction l with
  | nil => rfl
  | cons a t ih =>
    by_cases h : p a
    · simp [List.filter_cons, List.countP_cons, h, ih, List.replicate_succ]
    · simp [List.filter_cons, List.countP_cons, h, ih]

/-- Everything yielded for one candidate form is that form. -/
theorem formYields_eq_form (A : Analyzer) (form : WordForm)
    (cpos : Option CompoundPos) (ct : Cap) (ans : Bool) (g : WordForm)
    (hg : g ∈ formYields A form cpos ct ans) : g = form := by
  unfold formYields at hg
  split at hg <;> (rw [List.mem_map] at hg; rcases hg with ⟨a, _, h⟩; exact h.symm)

/-- Forms yielded by the `word_forms` loop come from the candidate stream. -/
theorem wordFormsAux_mem (A : Analyzer) (cpos : Option CompoundPos) (ct : Cap)
    (ans : Bool) : ∀ (l : List WordForm) (g : WordForm),
    g ∈ wordFormsAux A cpos ct ans l → g ∈ l := by
  intro l
  induction l with
  | nil => intro g hg; simp [wordFormsAux] at hg
  | cons f t ih =>
    intro g hg
    rw [wordFormsAux] at hg
    by_cases htr : triggersAbort A cpos f
    · simp [htr] at hg
    · rw [if_neg htr, List.mem_append] at hg
      rcases hg with hg | hg
      · rw [formYields_eq_form A f cpos ct ans g hg]
        exact List.mem_cons_self f t
      · exact List.mem_cons_of_mem f (ih g hg)

/-- The `word_forms` loop distributes over a non-aborting prefix of the
candidate stream. -/
theorem wordFormsAux_append (A : Analyzer) (cpos : Option CompoundPos) (ct : Cap)
    (ans : Bool) (l1 l2 : List WordForm)
    (h : ∀ f ∈ l1, triggersAbort A cpos f = false) :
    wordFormsAux A cpos ct ans (l1 ++ l2) =
      wordFormsAux A cpos ct ans l1 ++ wordFormsAux A cpos ct ans l2 := by
  induction l1 with
  | nil => simp [wordFormsAux]
  | cons f t ih =>
    have hf : triggersAbort A cpos f = false := h f (List.mem_cons_self f t)
    have ht : ∀ x ∈ t, triggersAbort A cpos x = false :=
      fun x hx => h x (List.mem_cons_of_mem f hx)
    simp [wordFormsAux, hf, ih ht]

/-- An aborting form empties the rest of the `word_forms` stream. -/
theorem wordFormsAux_cons_trigger (A : Analyzer) (cpos : Option CompoundPos)
    (ct : Cap) (ans : Bool) (f : WordForm) (l : List WordForm)
    (h : triggersAbort A cpos f = true) :
    wordFormsAux A cpos ct ans (f :: l) = [] := by
  simp [wordFormsAux, h]

/-- Splitting a list at positions `s ≤ e` and rejoining with the middle slice
restores the list. -/
theorem take_mid_drop (l : List α) (s e : Nat) (h : s ≤ e) :
    l.take s ++ ((l.drop s).take (e - s) ++ l.drop e) = l := by
  have h1 : l.drop e = (l.drop s).drop (e - s) := by
    rw [List.drop_drop]
    congr 1
    omega
  rw [h1, List.take_append_drop, List.take_append_drop]

/-- Spans produced by `dashScan` are ordered. -/
theorem dashScan_le :
    ∀ (n : Nat) (l : List Char), l.length ≤ n →
      ∀ (i : Nat), ∀ se ∈ dashScan l i, se.1 ≤ se.2 := by
  intro n
  induction n with
  | zero =>
    intro l hl i se h
    have : l = [] := List.eq_nil_of_length_eq_zero (Nat.le_zero.mp hl)
    subst this
    simp [dashScan] at h
  | succ n ih =>
    intro l hl i se h
    match l with
    | [] => simp [dashScan] at h
    | [c] => simp [dashScan] at h
    | [c, d] => simp [dashScan] at h
    | c1 :: c2 :: c3 :: rest =>
      rw [dashScan] at h
      by_cases hc : c2 = '-'
      · rw [if_pos hc, List.mem_cons] at h
        rcases h with h | h
        · subst h; omega
        · exact ih rest (by simp at hl; omega) (i + 3) se h
      · rw [if_neg hc] at h
        exact ih (c2 :: c3 :: rest) (by simp at hl ⊢; omega) (i + 1) se h

/-- Validity of the `.(-).` matcher spans. -/
theorem dashMatcher_valid : ∀ t : Str, ∀ se ∈ dashMatcher t, se.1 ≤ se.2 :=
  fun t => dashScan_le t.length t (Nat.le_refl _) 0

/-!  ## Claims -/

/-- Claim C1: for every word `w`, if FORBIDDENWORD is defined in the Aff
configuration, `dic.homonyms(w)` is non-empty, and every homonym of `w`
carries the FORBIDDENWORD flag, then `lookup(w)` returns `false`, for any
values of the capitalization and allow_nosuggest options (the forbidden
shortcut fires before ICONV, capitalization handling and the break search). -/
theorem lookup_forbidden_all_homonyms (A : Analyzer) (w : Str) (f : Flag)
    (hf : A.aff.FORBIDDENWORD = some f) (hne : f ≠ [])
    (hh : A.homonyms w ≠ [])
    (hall : ∀ dw ∈ A.homonyms w, f ∈ dw.flags)
    (capb ansb : Bool) :
    lookup A w capb ansb = some false := by
  have hsc : forbiddenShortcut A w = true := by
    unfold forbiddenShortcut
    rw [hf]
    simp only [flagTruthy, optMem, Bool.and_eq_true, Bool.not_eq_true',
      List.all_eq_true]
    refine ⟨⟨?_, ?_⟩, ?_⟩
    · cases f with
      | nil => exact absurd rfl hne
      | cons a t => rfl
    · cases hhw : A.homonyms w with
      | nil => exact absurd hhw hh
      | cons a t => rfl
    · intro dw hdw
      simpa using hall dw hdw
  unfold lookup
  rw [hsc]
  simp

/-- Witness for C1 on the fixture `A1`. -/
theorem lookup_forbidden_all_homonyms_witness :
    A1.aff.FORBIDDENWORD = some (str "!") ∧
    lookup A1 (str "bad") false false = some false :=
  ⟨rfl, lookup_forbidden_all_homonyms A1 (str "bad") (str "!") rfl (by decide)
    (by decide) (by decide) false false⟩

/-- Claim C2 (code bug, line 209 of the source): with `capitalization=False`,
`analyze` executes `return analyze_internal(word)` although
`analyze_internal(variant, captype)` has two required positional parameters,
so every such call raises `TypeError` (modelled as `none`) instead of
returning a boolean / yielding a sequence; `lookup(word,
capitalization=False, ...)` propagates the exception whenever the forbidden
shortcut does not fire.  With `capitalization=True` the same pipeline works. -/
theorem analyze_capitalization_false_raises :
    analyze A2 (str "hello") false true = none ∧
    lookup A2 (str "hello") false true = none ∧
    lookup A2 (str "hello") true true = some true := by
  refine ⟨rfl, by decide, by decide⟩

/-- Counterexample to claim C3: with ICONV `a→c` and `c` a forbidden word,
`lookup("a")` is `true` (the forbidden shortcut checks the *unconverted*
word, and `have_compatible_flags` never checks FORBIDDENWORD for a base
non-compound form) while `lookup(apply_iconv("a")) = lookup("c")` is `false`
via the forbidden shortcut. -/
theorem iconv_dominance_counterexample :
    lookup A3 (str "a") true true = some true ∧
    lookup A3 (applyIconv A3.aff.ICONV (str "a")) true true = some false := by
  constructor <;> decide

/-- Claim C3 (amended): `lookup(w) = lookup(apply_iconv(w))` holds provided
the forbidden shortcut is out of play (FORBIDDENWORD undefined) and
`apply_iconv` is idempotent at `w` (ICONV is applied once, *after* the
forbidden check, so a non-idempotent pair list also breaks the claim). -/
theorem iconv_dominance_amended (A : Analyzer) (w : Str) (cap ans : Bool)
    (hforb : flagTruthy A.aff.FORBIDDENWORD = false)
    (hidem : iconvWord A (iconvWord A w) = iconvWord A w) :
    lookup A w cap ans = lookup A (iconvWord A w) cap ans := by
  have h1 : forbiddenShortcut A w = false := by
    unfold forbiddenShortcut; rw [hforb]; rfl
  have h2 : forbiddenShortcut A (iconvWord A w) = false := by
    unfold forbiddenShortcut; rw [hforb]; rfl
  unfold lookup
  rw [h1, h2, hidem]

/-- Witness for the amended C3 on the fixture `A11`. -/
theorem iconv_dominance_amended_witness :
    flagTruthy A11.aff.FORBIDDENWORD = false ∧
    iconvWord A11 (iconvWord A11 (str "a")) = iconvWord A11 (str "a") ∧
    lookup A11 (str "a") true true = lookup A11 (iconvWord A11 (str "a")) true true :=
  ⟨by decide, by decide,
   iconv_dominance_amended A11 (str "a") true true (by decide) (by decide)⟩

/-- Counterexample to claim C8: both duplicate homonyms of `cat` are
compatible with the identity form, and `word_forms` yields the form *twice*
(once per compatible homonym), not exactly once. -/
theorem word_forms_yield_once_counterexample :
    (A8.homonyms (str "cat")).any (exactCompat A8 (idForm "cat") none Cap.NO true)
      = true ∧
    (wordForms A8 (str "cat") Cap.NO none true).count (idForm "cat") = 2 := by
  constructor <;> decide

/-- Claim C8 (amended): for each candidate form, `word_forms` yields the form
once *per compatible case-exact homonym*; only when no case-exact homonym is
compatible (count zero) is the case-insensitive fallback consulted, yielding
the form once per accepted case-insensitive homonym. -/
theorem word_forms_yield_per_homonym (A : Analyzer) (form : WordForm)
    (cpos : Option CompoundPos) (captype : Cap) (ans : Bool) :
    formYields A form cpos captype ans =
      if (A.homonyms form.stem).countP (exactCompat A form cpos captype ans) = 0 then
        List.replicate
          ((A.homonymsIC form.stem).countP (icCompat A form cpos captype ans)) form
      else
        List.replicate
          ((A.homonyms form.stem).countP (exactCompat A form cpos captype ans)) form := by
  unfold formYields
  rw [List.countP_eq_length_filter, List.countP_eq_length_filter]
  by_cases h : ((A.homonyms form.stem).filter (exactCompat A form cpos captype ans)).isEmpty
  · have hlen : ((A.homonyms form.stem).filter (exactCompat A form cpos captype ans)).length = 0 := by
      rw [List.isEmpty_iff] at h
      simp [h]
    rw [if_neg (by simp [h]), if_pos hlen, map_const_filter,
      List.countP_eq_length_filter]
  · have hlen : ((A.homonyms form.stem).filter (exactCompat A form cpos captype ans)).length ≠ 0 := by
      intro h0
      exact h (by rwa [List.isEmpty_iff, ← List.length_eq_zero])
    rw [if_pos (by simp [h]), if_neg hlen, map_const_filter,
      List.countP_eq_length_filter]

/-- Counterexample to claim C9: with CHECKCOMPOUNDTRIPLE on, the compound
`[xy, aa, zw]` is rejected by the code (the inner loop examines the pair
`(aa, aa)` — the same part as both left and right — whose seam `aa|a` is a
triple), while no pair with left strictly preceding right triggers any check. -/
theorem bad_compound_pair_counterexample :
    badCompound A9 [idForm "xy", idForm "aa", idForm "zw"] = true ∧
    badCompoundSpec A9 [idForm "xy", idForm "aa", idForm "zw"] = false := by
  constructor <;> decide

/-- Claim C9 (amended): `bad_compound` returns true iff the COMPOUNDFORBIDFLAG
check holds for some left part among `compound[:-1]`, or one of the four seam
checks holds for some left part among `compound[:-1]` and some right part
among `compound[1:]` — the right part ranges over *all parts except the
first*, regardless of its position relative to the left part. -/
theorem bad_compound_pair_range (A : Analyzer) (c : List WordForm)
    (_hne : ∀ p ∈ c, p.text ≠ []) :
    badCompound A c = true ↔
      (∃ left ∈ c.dropLast, forbidHom A left.text = true) ∨
      (∃ left ∈ c.dropLast, ∃ right ∈ c.drop 1, seamChecks A left right = true) := by
  unfold badCompound
  rw [List.any_eq_true]
  constructor
  · rintro ⟨l, hl, h⟩
    rw [Bool.or_eq_true] at h
    rcases h with h | h
    · exact Or.inl ⟨l, hl, h⟩
    · rw [List.any_eq_true] at h
      rcases h with ⟨r, hr, h⟩
      exact Or.inr ⟨l, hl, r, hr, h⟩
  · rintro (⟨l, hl, h⟩ | ⟨l, hl, r, hr, h⟩)
    · exact ⟨l, hl, by rw [Bool.or_eq_true]; exact Or.inl h⟩
    · exact ⟨l, hl, by
        rw [Bool.or_eq_true]
        exact Or.inr (List.any_eq_true.mpr ⟨r, hr, h⟩)⟩

/-- Witness for the amended C9 on the same concrete compound. -/
theorem bad_compound_pair_range_witness :
    badCompound A9 [idForm "xy", idForm "aa", idForm "zw"] = true ↔
      (∃ left ∈ ([idForm "xy", idForm "aa", idForm "zw"] : List WordForm).dropLast,
        forbidHom A9 left.text = true) ∨
      (∃ left ∈ ([idForm "xy", idForm "aa", idForm "zw"] : List WordForm).dropLast,
        ∃ right ∈ ([idForm "xy", idForm "aa", idForm "zw"] : List WordForm).drop 1,
          seamChecks A9 left right = true) :=
  bad_compound_pair_range A9 [idForm "xy", idForm "aa", idForm "zw"] (by decide)

/-- Claim C10: with CHECKCOMPOUNDTRIPLE enabled, `bad_compound` rejects a
compound whenever for some examined pair the multiset `left[-2:] + right[:1]`
or `left[-1:] + right[:2]` has exactly one distinct character — in particular
a length-1 part makes the check fire with only two identical characters at
the seam (see the witness). -/
theorem triple_seam_rejects (A : Analyzer) (c : List WordForm)
    (left right : WordForm)
    (hT : A.aff.CHECKCOMPOUNDTRIPLE = true)
    (hl : left ∈ c.dropLast) (hr : right ∈ c.drop 1)
    (hseam : tripleSeam left.text right.text = true) :
    badCompound A c = true := by
  unfold badCompound
  rw [List.any_eq_true]
  refine ⟨left, hl, ?_⟩
  rw [Bool.or_eq_true]
  right
  rw [List.any_eq_true]
  refine ⟨right, hr, ?_⟩
  simp [seamChecks, hT, hseam]

/-- Witness for C10: the seam of the length-1 part `a` and `ab` is the
two-character window `aa`, which already fires the triple check. -/
theorem triple_seam_rejects_witness :
    A9.aff.CHECKCOMPOUNDTRIPLE = true ∧
    tripleSeam (idForm "a").text (idForm "ab").text = true ∧
    badCompound A9 [idForm "a", idForm "ab"] = true :=
  ⟨rfl, by decide,
   triple_seam_rejects A9 [idForm "a", idForm "ab"] (idForm "a") (idForm "ab")
     rfl (by decide) (by decide) (by decide)⟩

/-- The compound that `compound_parts` actually yields on `xcatydog` under
`A6`: the first part is the cross-product form whose `text` is the
*deprefixed stem* `caty`, not the surface `xcaty`. -/
def c6compound : List WordForm :=
  [⟨str "caty", str "cat", some pfxX, some sfxY, none, none⟩, idForm "dog"]

/-- Claim C6 (code bug, line 379 of the source): the cross-product branch of
`try_affix_forms` yields `form2.replace(prefix=form.prefix)` *without*
restoring `text` to the original word (spec §4.2 says "text kept as the
original word", and §3 lists the concatenation invariant), so `compound_parts`
can yield a compound whose concatenated `text` fields omit the prefix `add`:
on input `xcatydog` the yielded compound's texts concatenate to `catydog`. -/
theorem compound_concat_crossproduct_bug :
    c6compound ∈ compoundParts A6 (str "xcatydog") true ∧
    c6compound.length ≥ 2 ∧
    concatTexts c6compound ≠ str "xcatydog" := by
  refine ⟨by decide, by decide, by decide⟩

/-- The second affix form that `try_affix_forms` produces on `cats` under
`A7` (the `s`-stripped form with stem `cat`). -/
def c7sufForm : WordForm := ⟨str "cats", str "cat", none, some sfxS, none, none⟩

/-- Claim C7: in `word_forms`, when a candidate form at a compound position or
with at least one affix has a homonym of its stem carrying FORBIDDENWORD, the
whole generator stops: assuming no earlier candidate triggers the abort, the
output is exactly the output for the earlier candidates, and every yielded
form is one of those earlier candidates — nothing at or after the triggering
form is yielded through any path. -/
theorem word_forms_forbidden_abort (A : Analyzer) (word : Str)
    (cpos : Option CompoundPos) (ct : Cap) (ans : Bool)
    (forms1 forms2 : List WordForm) (form : WordForm)
    (hsplit : tryAffixForms A word cpos = forms1 ++ form :: forms2)
    (hcond : cpos.isSome = true ∨ form.is_base = false)
    (hforb : (A.homonyms form.stem).any
      (fun dw => optMem A.aff.FORBIDDENWORD dw.flags) = true)
    (hbefore : ∀ f ∈ forms1, triggersAbort A cpos f = false) :
    wordForms A word ct cpos ans = wordFormsAux A cpos ct ans forms1 ∧
    ∀ g ∈ wordFormsAux A cpos ct ans forms1, g ∈ forms1 := by
  have htr : triggersAbort A cpos form = true := by
    unfold triggersAbort
    rw [Bool.and_eq_true]
    refine ⟨?_, hforb⟩
    rcases hcond with h | h
    · simp [h]
    · simp [h]
  constructor
  · unfold wordForms
    rw [hsplit, wordFormsAux_append A cpos ct ans forms1 _ hbefore,
      wordFormsAux_cons_trigger A cpos ct ans form forms2 htr]
    simp
  · exact fun g hg => wordFormsAux_mem A cpos ct ans forms1 g hg

/-- Witness for C7 on the fixture `A7`: on `cats`, only the identity form
precedes the `s`-stripped form `cat`, whose homonym is forbidden; the
generator output collapses to the identity form's output. -/
theorem word_forms_forbidden_abort_witness :
    (wordForms A7 (str "cats") Cap.NO none true =
      wordFormsAux A7 none Cap.NO true [idForm "cats"]) ∧
    ∀ g ∈ wordFormsAux A7 none Cap.NO true [idForm "cats"], g ∈ [idForm "cats"] :=
  word_forms_forbidden_abort A7 (str "cats") none Cap.NO true
    [idForm "cats"] [] c7sufForm (by decide) (Or.inr (by decide)) (by decide)
    (by decide)

/-- The three-part compound yielded on `abc` under `A5` although
`COMPOUNDWORDSMAX = 2`. -/
def c5compound : List WordForm := [idForm "a", idForm "b", idForm "c"]

/-- Counterexample to claim C5: with `COMPOUNDWORDSMAX = 2` (and
COMPOUNDMIN 1), the flags search on `abc` yields a compound of *three* parts:
the END-position yield at the top of `compound_parts_by_flags` precedes the
`len(prev_parts) >= COMPOUNDWORDSMAX` cutoff, so the cap is exceeded by one. -/
theorem compound_wordsmax_counterexample :
    A5.aff.COMPOUNDWORDSMAX = some 2 ∧
    c5compound ∈ compoundPartsByFlags A5 true 4 (str "abc") [] ∧
    c5compound ∈ compoundParts A5 (str "abc") true ∧
    c5compound.length = 3 := by
  refine ⟨rfl, by decide, by decide, rfl⟩

/-- When the cutoff has not fired and COMPOUNDWORDSMAX is a set non-zero `m`,
fewer than `m` parts have accumulated. -/
theorem cutoff_false_prev_lt (A : Analyzer) (m : Nat)
    (hm : A.aff.COMPOUNDWORDSMAX = some m) (hm0 : m ≠ 0)
    (restLen prevLen : Nat) (h : cutoff A restLen prevLen = false) :
    prevLen < m := by
  unfold cutoff wordsmaxHit at h
  rw [hm] at h
  simp [hm0] at h
  omega

/-- Part-count bound for the flags search: any yielded compound together with
the accumulated parts stays within `m + 1`. -/
theorem byFlags_length_bound (A : Analyzer) (ans : Bool) (m : Nat)
    (hm : A.aff.COMPOUNDWORDSMAX = some m) (hm0 : m ≠ 0) :
    ∀ (fuel : Nat) (rest : Str) (prev : List WordForm), prev.length ≤ m →
      ∀ c ∈ compoundPartsByFlags A ans fuel rest prev,
        c.length + prev.length ≤ m + 1 := by
  intro fuel
  induction fuel with
  | zero =>
    intro rest prev hp c hc
    simp [compoundPartsByFlags] at hc
  | succ n ih =>
    intro rest prev hp c hc
    rw [compoundPartsByFlags, List.mem_append] at hc
    rcases hc with hc | hc
    · by_cases hpe : prev.isEmpty
      · rw [if_pos hpe] at hc
        simp at hc
      · rw [if_neg hpe, List.mem_map] at hc
        rcases hc with ⟨f, _, rfl⟩
        simp
        omega
    · by_cases hcut : cutoff A rest.length prev.length
      · rw [if_pos hcut] at hc
        simp at hc
      · rw [if_neg hcut, List.mem_flatMap] at hc
        rcases hc with ⟨pos, _, hc⟩
        rw [List.mem_flatMap] at hc
        rcases hc with ⟨form, _, hc⟩
        rw [List.mem_map] at hc
        rcases hc with ⟨rst, hrst, rfl⟩
        have hlt : prev.length < m :=
          cutoff_false_prev_lt A m hm hm0 rest.length prev.length
            (Bool.not_eq_true _ ▸ eq_false_of_ne_true hcut)
        have hrec := ih (rest.drop pos) (prev ++ [form])
          (by simp; omega) rst hrst
        simp at hrec ⊢
        omega

/-- Part-count bound for the rules search (same cutoff structure). -/
theorem byRules_length_bound (A : Analyzer) (m : Nat)
    (hm : A.aff.COMPOUNDWORDSMAX = some m) (hm0 : m ≠ 0) :
    ∀ (fuel : Nat) (ans : Bool) (rest : Str) (prev : List DicWord)
      (rules : List CompoundRule), prev.length ≤ m →
      ∀ c ∈ compoundPartsByRules A ans fuel rest prev rules,
        c.length + prev.length ≤ m + 1 := by
  intro fuel
  induction fuel with
  | zero =>
    intro ans rest prev rules hp c hc
    simp [compoundPartsByRules] at hc
  | succ n ih =>
    intro ans rest prev rules hp c hc
    rw [compoundPartsByRules, List.mem_append] at hc
    rcases hc with hc | hc
    · by_cases hpe : prev.isEmpty
      · rw [if_pos hpe] at hc
        simp at hc
      · rw [if_neg hpe] at hc
        unfold rulesEndYields at hc
        rw [List.mem_flatMap] at hc
        rcases hc with ⟨hom, _, hc⟩
        split at hc
        · rw [List.mem_singleton] at hc
          subst hc
          simp
          omega
        · simp at hc
    · by_cases hcut : cutoff A rest.length prev.length
      · rw [if_pos hcut] at hc
        simp at hc
      · rw [if_neg hcut, List.mem_flatMap] at hc
        rcases hc with ⟨pos, _, hc⟩
        rw [List.mem_flatMap] at hc
        rcases hc with ⟨hom, _, hc⟩
        dsimp only at hc
        split at hc
        · rw [List.mem_map] at hc
          rcases hc with ⟨rst, hrst, rfl⟩
          have hlt : prev.length < m :=
            cutoff_false_prev_lt A m hm hm0 rest.length prev.length
              (Bool.not_eq_true _ ▸ eq_false_of_ne_true hcut)
          have hrec := ih true (rest.drop pos) (prev ++ [hom]) rules
            (by simp; omega) rst hrst
          simp at hrec ⊢
          omega
        · simp at hc

/-- Claim C5 (amended): when COMPOUNDWORDSMAX is a set non-zero `m`, every
compound yielded by either compound search has at most `m + 1` parts (not
`m`: the END-position yield precedes the cutoff check, so the cap can be
exceeded by exactly one part — see `compound_wordsmax_counterexample`); and
once `|rest| < COMPOUNDMIN·2` or `|prev| ≥ m`, the search stops expanding: a
call yields only the single END-position completion and does not split
further. -/
theorem compound_wordsmax_bound_amended (A : Analyzer) (ans : Bool) (m : Nat)
    (hm : A.aff.COMPOUNDWORDSMAX = some m) (hm0 : m ≠ 0) :
    (∀ (fuel : Nat) (word : Str) (c : List WordForm),
      c ∈ compoundPartsByFlags A ans fuel word [] → c.length ≤ m + 1) ∧
    (∀ (fuel : Nat) (word : Str) (rules : List CompoundRule) (c : List WordForm),
      c ∈ compoundPartsByRules A ans fuel word [] rules → c.length ≤ m + 1) ∧
    (∀ (fuel : Nat) (rest : Str) (prev : List WordForm),
      rest.length < A.aff.COMPOUNDMIN * 2 ∨ m ≤ prev.length →
      compoundPartsByFlags A ans (fuel + 1) rest prev =
        if prev.isEmpty then []
        else (wordForms A rest Cap.NO (some CompoundPos.END) ans).map fun f => [f]) ∧
    (∀ (fuel : Nat) (rest : Str) (prev : List DicWord) (rules : List CompoundRule),
      rest.length < A.aff.COMPOUNDMIN * 2 ∨ m ≤ prev.length →
      compoundPartsByRules A ans (fuel + 1) rest prev rules =
        if prev.isEmpty then [] else rulesEndYields A rest prev rules) := by
  have hcut : ∀ (restLen prevLen : Nat),
      restLen < A.aff.COMPOUNDMIN * 2 ∨ m ≤ prevLen →
      cutoff A restLen prevLen = true := by
    intro restLen prevLen h
    unfold cutoff wordsmaxHit
    rw [hm]
    rcases h with h | h
    · simp [h]
    · simp [h, hm0]
  refine ⟨?_, ?_, ?_, ?_⟩
  · intro fuel word c hc
    have := byFlags_length_bound A ans m hm hm0 fuel word [] (by simp) c hc
    simpa using this
  · intro fuel word rules c hc
    have := byRules_length_bound A m hm hm0 fuel ans word [] rules (by simp) c hc
    simpa using this
  · intro fuel rest prev h
    rw [compoundPartsByFlags, if_pos (hcut rest.length prev.length h)]
    simp
  · intro fuel rest prev rules h
    rw [compoundPartsByRules, if_pos (hcut rest.length prev.length h)]
    simp

/-- Witness for the amended C5 on the fixture `A5` (`m = 2`): the concrete
three-part compound respects the `m + 1` bound, and a cutoff call stops
expanding. -/
theorem compound_wordsmax_bound_amended_witness :
    A5.aff.COMPOUNDWORDSMAX = some 2 ∧
    c5compound.length ≤ 2 + 1 ∧
    compoundPartsByFlags A5 true (3 + 1) (str "c") [idForm "a", idForm "b"] =
      (wordForms A5 (str "c") Cap.NO (some CompoundPos.END) true).map (fun f => [f]) := by
  refine ⟨rfl, ?_, ?_⟩
  · exact (compound_wordsmax_bound_amended A5 true 2 rfl (by decide)).1 4 (str "abc")
      c5compound (by decide)
  · have h := (compound_wordsmax_bound_amended A5 true 2 rfl (by decide)).2.2.1 3
      (str "c") [idForm "a", idForm "b"] (Or.inr (by decide))
    rw [h]
    rfl

/-- Counterexample to claim C4: on `foo-bar` with `BREAK -` and dictionary
`foo, bar`, the accepted splitting is `[foo, bar]` (the word itself is not
found, the splitting's parts are each found, and `lookup` accepts) — but the
parts do *not* form a partition of the input: the matched break separator is
dropped, so their concatenation is `foobar ≠ foo-bar`. -/
theorem break_partition_counterexample :
    lookup A4 (str "foo-bar") true true = some true ∧
    isFound A4 true (str "foo-bar") = false ∧
    [str "foo", str "bar"] ∈ tryBreak A4 11 (str "foo-bar") ∧
    (∀ p ∈ ([str "foo", str "bar"] : List Str), p ≠ [] → isFound A4 true p = true) ∧
    concatParts [str "foo", str "bar"] ≠ str "foo-bar" := by
  refine ⟨by decide, by decide, by decide, by decide, by decide⟩

/-- Claim C4 (amended): every splitting yielded by the break search
reconstructs the input once the matched break separators are reinserted
between consecutive parts — the non-empty parts of an accepted splitting are
each individually accepted (that is the acceptance condition itself), but
they form a partition of the input only up to the removed separators.
The hypothesis states the only property the external regex engine guarantees
about its group-1 spans: start ≤ end. -/
theorem break_reconstruction_amended (A : Analyzer)
    (hval : ∀ bm ∈ A.breakMatches, ∀ t : Str, ∀ se ∈ bm t, se.1 ≤ se.2) :
    ∀ (fuel : Nat) (text : Str) (parts : List Str), parts ∈ tryBreak A fuel text →
      parts ≠ [] ∧ ∃ seps : List Str, seps.length + 1 = parts.length ∧
        interleaveParts parts seps = text := by
  intro fuel
  induction fuel with
  | zero =>
    intro text parts h
    simp [tryBreak] at h
  | succ n ih =>
    intro text parts h
    rw [tryBreak, List.mem_cons] at h
    rcases h with h | h
    · subst h
      exact ⟨by simp, [], by simp, rfl⟩
    · rw [List.mem_flatMap] at h
      rcases h with ⟨bm, hbm, h⟩
      rw [List.mem_flatMap] at h
      rcases h with ⟨se, hse, h⟩
      rw [List.mem_map] at h
      rcases h with ⟨breaking, hbr, rfl⟩
      obtain ⟨hbne, seps, hlen, hint⟩ := ih _ _ hbr
      have hle : se.1 ≤ se.2 := hval bm hbm text se hse
      refine ⟨by simp, (text.drop se.1).take (se.2 - se.1) :: seps, by simp [← hlen], ?_⟩
      cases breaking with
      | nil => exact absurd rfl hbne
      | cons b bs =>
        show text.take se.1 ++ ((text.drop se.1).take (se.2 - se.1) ++
          interleaveParts (b :: bs) seps) = text
        rw [hint]
        exact take_mid_drop text se.1 se.2 hle

/-- Witness for the amended C4: the splitting `[foo, bar]` of `foo-bar`
reconstructs the input with the separator `-` reinserted. -/
theorem break_reconstruction_amended_witness :
    ([str "foo", str "bar"] : List Str) ≠ [] ∧
    ∃ seps : List Str, seps.length + 1 = ([str "foo", str "bar"] : List Str).length ∧
      interleaveParts [str "foo", str "bar"] seps = str "foo-bar" :=
  break_reconstruction_amended A4
    (by
      intro bm hbm t se hse
      have hb : bm = dashMatcher := by
        simpa [A4, mkAnalyzer] using hbm
      rw [hb] at hse
      exact dashMatcher_valid t se hse)
    11 (str "foo-bar") [str "foo", str "bar"] (by decide)

end Spylls
